import Mathlib

/-!
Verification of the PromptLens saliency pipeline (`app.js`).

This file shallowly embeds the core of the PromptLens application:

* `tokenizePhrases` — phrase segmentation (`app.js` lines 261-289),
  including the sentence-terminator scan performed by the regex
  `([^.!?\n]+[.!?\n]+)|([^.!?\n]+$)` and the comma/semicolon sub-split
  with greedy 35-character accumulation;
* `ngramFreq` / `cosineSim` — character-trigram cosine similarity
  (`app.js` lines 299-327), with the real-valued square root modelled
  by `Real.sqrt` (JavaScript numbers are idealised as exact rationals
  or reals; counts are exact naturals);
* `saliencyPerturbation`, `saliencyOmission`, `saliencyParaphrase` —
  the three per-phrase probe loops (`app.js` lines 334-396), modelled
  over an abstract oracle that maps (query text, call index) to either
  a response (`some`) or a thrown error (`none`), with the call index
  threaded sequentially exactly as the `await`-driven loop does;
* `normalise` — min-max normalisation (`app.js` lines 400-405), with
  `Math.min()` / `Math.max()` over the empty array producing the
  JavaScript infinities, modelled by `WithBot (WithTop ℚ)`.

Strings are modelled as `List Char`.  JavaScript `String.prototype.trim`
is modelled on the ASCII whitespace characters that the analysed claims
exercise; `toLowerCase` is modelled by `Char.toLower`.
-/

namespace PromptLens

/-- Sentence terminators recognised by the segmentation regex: `. ! ? \n`. -/
def isTerm (c : Char) : Bool :=
  c == '.' || c == '!' || c == '?' || c == '\n'

/-- Whitespace characters removed by `String.prototype.trim`
(ASCII space, tab, newline, carriage return, vertical tab, form feed). -/
def isWS (c : Char) : Bool :=
  c == ' ' || c == '\t' || c == '\n' || c == '\r' || c == '\x0b' || c == '\x0c'

/-- `s.trim()`: remove leading and trailing whitespace. -/
def trimChars (cs : List Char) : List Char :=
  ((cs.dropWhile isWS).reverse.dropWhile isWS).reverse

/-- Clause separators used by the sub-split regex `(?<=[,;])`. -/
def isCut (c : Char) : Bool :=
  c == ',' || c == ';'

/-- The scan performed by `while ((m = sentRe.exec(text)) !== null)` with
`sentRe = /([^.!?\n]+[.!?\n]+)|([^.!?\n]+$)/g`: the matches are the maximal
runs of non-terminator characters together with the following maximal run
of terminators.  Terminator characters at the very start of the text (or
before the first accumulated character) belong to no match and are skipped.
`cur` is the reversed text of the candidate being accumulated and `inT`
records whether the scan is currently inside the terminator run. -/
def scanAux (cur : List Char) (inT : Bool) : List Char → List (List Char)
  | [] => if cur.isEmpty then [] else [cur.reverse]
  | c :: cs =>
    if isTerm c then
      if cur.isEmpty then scanAux [] false cs
      else scanAux (c :: cur) true cs
    else
      if inT then cur.reverse :: scanAux [c] false cs
      else scanAux (c :: cur) false cs

/-- All candidate sentences produced by the regex scan, in order. -/
def splitSentences (t : List Char) : List (List Char) :=
  scanAux [] false t

/-- `s.split(/(?<=[,;])/)`: cut the string immediately after every comma or
semicolon that is followed by at least one further character (JavaScript
`split` never matches the empty separator at the end of the string, so a
trailing comma produces no empty piece). -/
def splitAfterCuts : List Char → List (List Char)
  | [] => [[]]
  | c :: rest =>
    if isCut c && !rest.isEmpty then
      [c] :: splitAfterCuts rest
    else
      match splitAfterCuts rest with
      | [] => [[c]]
      | p :: ps => (c :: p) :: ps

/-- The greedy accumulation loop of `tokenizePhrases` (`app.js` 273-282):
append pieces to `acc`; once the trimmed accumulator reaches 35 characters,
or the last piece has been consumed, push `acc` provided its trimmed text
is non-empty, and reset.  The `[]` case is the post-loop
`if (acc.trim()) sentences.push(acc)` flush. -/
def accumChunks : List (List Char) → List Char → List (List Char)
  | [], acc => if (trimChars acc).isEmpty then [] else [acc]
  | p :: ps, acc =>
    let acc2 := acc ++ p
    if 35 ≤ (trimChars acc2).length ∨ ps = [] then
      (if (trimChars acc2).isEmpty then [] else [acc2]) ++ accumChunks ps []
    else
      accumChunks ps acc2

/-- The final partial chunk of the greedy accumulation loop: the value of
`acc` right after the last cut-piece has been appended — i.e. the text
accumulated since the last `≥ 35` flush, ending at the end of the
candidate.  This is exactly the chunk that the `isLast` arm of
`accumChunks` pushes when its trimmed text is non-empty and discards
otherwise.  (For pieces before the last one the flush condition
`35 ≤ trimmed length ∨ isLast` reduces to the length test mirrored
here.) -/
def finalChunk : List (List Char) → List Char → List Char
  | [], acc => acc
  | p :: ps, acc =>
    match ps with
    | [] => acc ++ p
    | _ :: _ =>
      if 35 ≤ (trimChars (acc ++ p)).length then finalChunk ps []
      else finalChunk ps (acc ++ p)

/-- Processing of one candidate sentence inside the scan loop:
whitespace-only candidates are dropped, candidates longer than 60
characters are sub-split on commas/semicolons, the rest are kept whole. -/
def processCandidate (s : List Char) : List (List Char) :=
  if (trimChars s).isEmpty then []
  else if 60 < s.length then accumChunks (splitAfterCuts s) []
  else [s]

/-- `tokenizePhrases` (`app.js` 261-289). -/
def tokenizePhrases (text : List Char) : List (List Char) :=
  let sentences := ((splitSentences text).map processCandidate).flatten
  if sentences.isEmpty then [text] else sentences

/-- `text.toLowerCase()` as used by `ngramFreq`. -/
def lowered (t : List Char) : List Char :=
  t.map Char.toLower

/-- All length-`3` sliding windows of the lowercased text, in order
(the loop `for (let i = 0; i <= t.length - n; i++)` of `ngramFreq`). -/
def ngrams (t : List Char) : List (List Char) :=
  if t.length < 3 then []
  else (List.range (t.length - 3 + 1)).map fun i => (t.drop i).take 3

/-- `ngramFreq(text)[g]` (`app.js` 299-307): the number of occurrences of
the trigram `g` in the lowercased text (`0` for absent keys). -/
def ngramFreq (t g : List Char) : ℕ :=
  (ngrams (lowered t)).count g

/-- `new Set([...Object.keys(va), ...Object.keys(vb)])`: the union of the
trigram keys of the two frequency vectors. -/
def triKeys (a b : List Char) : Finset (List Char) :=
  (ngrams (lowered a)).toFinset ∪ (ngrams (lowered b)).toFinset

/-- `dot` accumulated by `cosineSim` over the key union. -/
def simDot (a b : List Char) : ℕ :=
  ∑ g ∈ triKeys a b, ngramFreq a g * ngramFreq b g

/-- `na` accumulated by `cosineSim` over the key union. -/
def simNa (a b : List Char) : ℕ :=
  ∑ g ∈ triKeys a b, ngramFreq a g * ngramFreq a g

/-- `nb` accumulated by `cosineSim` over the key union. -/
def simNb (a b : List Char) : ℕ :=
  ∑ g ∈ triKeys a b, ngramFreq b g * ngramFreq b g

/-- `cosineSim` (`app.js` 313-327): zero when either norm vanishes,
otherwise `dot / (sqrt na * sqrt nb)`. -/
noncomputable def cosineSim (a b : List Char) : ℝ :=
  if simNa a b = 0 ∨ simNb a b = 0 then 0
  else (simDot a b : ℝ) / (Real.sqrt (simNa a b) * Real.sqrt (simNb a b))

/-- The Model Oracle: a query text and the zero-based index of the
invocation within the run are mapped to `some` response text, or `none`
when the call throws (HTTP error, rate limit, invalid key, ...).
The fixed context text and token limits of `callLLM` are absorbed into
the oracle. -/
abbrev Oracle := List Char → ℕ → Option (List Char)

/-- `phrases.map((p, j) => (j === i ? repl : p))`. -/
def replaceAt : List (List Char) → ℕ → List Char → List (List Char)
  | [], _, _ => []
  | _ :: ps, 0, r => r :: ps
  | p :: ps, n + 1, r => p :: replaceAt ps n r

/-- The fixed substitution placeholder of `saliencyPerturbation`. -/
def placeholderSub : List Char := "[...]".data

/-- The variant prompt built by `saliencyPerturbation` for phrase `i`. -/
def substVariant (phrases : List (List Char)) (i : ℕ) : List Char :=
  (replaceAt phrases i placeholderSub).flatten

/-- The variant prompt built by `saliencyOmission` for phrase `i`:
`phrases.filter((_, j) => j !== i).join('') || ' '`. -/
def omitVariant (phrases : List (List Char)) (i : ℕ) : List Char :=
  let s := (phrases.eraseIdx i).flatten
  if s.isEmpty then [' '] else s

/-- The fixed fallback replacement of `saliencyParaphrase`. -/
def neutralPlaceholder : List Char := "[something]".data

/-- The fixed instruction text prepended to the phrase in the
neutralisation side query of `saliencyParaphrase`. -/
def paraphraseInstr : List Char :=
  ("Rewrite the following phrase to remove all specific information, " ++
   "making it maximally vague and uninformative. " ++
   "Keep roughly the same character length. " ++
   "Return ONLY the rewritten phrase — no explanation, no quotes:\n").data

/-- The full side-query text sent for one phrase by `saliencyParaphrase`. -/
def paraphraseQuery (phrase : List Char) : List Char :=
  paraphraseInstr ++ phrase

/-- The neutral replacement computed by `saliencyParaphrase` for one
phrase: `let neutral = '[something]'; try { neutral = await callLLM(...) }
catch { }` — the placeholder survives only when the side query throws. -/
def paraNeutral (oracle : Oracle) (k : ℕ) (phrase : List Char) : List Char :=
  match oracle (paraphraseQuery phrase) k with
  | some out => out
  | none => neutralPlaceholder

/-- The variant prompt built by `saliencyParaphrase` for phrase `i`. -/
def paraVariant (phrases : List (List Char)) (i : ℕ) (neutral : List Char) :
    List Char :=
  (replaceAt phrases i neutral).flatten

/-- The shared shape of the `saliencyPerturbation` / `saliencyOmission`
loops: for each remaining phrase (current index `i`), invoke the oracle
once — at call index `k` — on the variant for `i`, score
`1 - cosineSim(baseline, out)` on success and `0` on failure, and
continue.  Returns the score list and the final call counter. -/
noncomputable def probeLoop (variantOf : ℕ → List Char) (baseline : List Char)
    (oracle : Oracle) : ℕ → ℕ → ℕ → List ℝ × ℕ
  | 0, _, k => ([], k)
  | rem + 1, i, k =>
    let score : ℝ :=
      match oracle (variantOf i) k with
      | some out => 1 - cosineSim baseline out
      | none => 0
    let rest := probeLoop variantOf baseline oracle rem (i + 1) (k + 1)
    (score :: rest.1, rest.2)

/-- `saliencyPerturbation` (`app.js` 334-347), entered with call
counter `k0`. -/
noncomputable def saliencyPerturbation (phrases : List (List Char))
    (baseline : List Char) (oracle : Oracle) (k0 : ℕ) : List ℝ × ℕ :=
  probeLoop (fun i => substVariant phrases i) baseline oracle
    phrases.length 0 k0

/-- `saliencyOmission` (`app.js` 352-365), entered with call counter `k0`. -/
noncomputable def saliencyOmission (phrases : List (List Char))
    (baseline : List Char) (oracle : Oracle) (k0 : ℕ) : List ℝ × ℕ :=
  probeLoop (fun i => omitVariant phrases i) baseline oracle
    phrases.length 0 k0

/-- The `saliencyParaphrase` loop (`app.js` 371-396): per phrase, first the
neutralisation side query (call index `k`), then the probe on the variant
(call index `k + 1`); a failed probe scores `0`. -/
noncomputable def paraLoop (phrases : List (List Char)) (baseline : List Char)
    (oracle : Oracle) : ℕ → ℕ → ℕ → List ℝ × ℕ
  | 0, _, k => ([], k)
  | rem + 1, i, k =>
    let neutral := paraNeutral oracle k (phrases.getD i [])
    let score : ℝ :=
      match oracle (paraVariant phrases i neutral) (k + 1) with
      | some out => 1 - cosineSim baseline out
      | none => 0
    let rest := paraLoop phrases baseline oracle rem (i + 1) (k + 2)
    (score :: rest.1, rest.2)

/-- `saliencyParaphrase` (`app.js` 371-396), entered with call counter `k0`. -/
noncomputable def saliencyParaphrase (phrases : List (List Char))
    (baseline : List Char) (oracle : Oracle) (k0 : ℕ) : List ℝ × ℕ :=
  paraLoop phrases baseline oracle phrases.length 0 k0

/-- The three saliency methods selectable in the UI. -/
inductive Method
  | perturbation
  | omission
  | paraphrase
deriving DecidableEq

/-- The orchestration core of `runAnalysis` (`app.js` 556-584): the baseline
query on the primary text is call index `0`; a thrown baseline call is
fatal (`none`, one call made); otherwise the selected saliency method runs
with the call counter starting at `1`.  Returns the raw scores (or `none`
on baseline failure) and the total number of Model Oracle invocations. -/
noncomputable def runSaliency (primary : List Char)
    (phrases : List (List Char)) (method : Method) (oracle : Oracle) :
    Option (List ℝ) × ℕ :=
  match oracle primary 0 with
  | none => (none, 1)
  | some baseline =>
    let r :=
      match method with
      | .perturbation => saliencyPerturbation phrases baseline oracle 1
      | .omission => saliencyOmission phrases baseline oracle 1
      | .paraphrase => saliencyParaphrase phrases baseline oracle 1
    (some r.1, r.2)

/-- The JavaScript number line as needed by `normalise`: rationals
together with `-Infinity` (`⊥`) and `+Infinity` (`⊤`). -/
abbrev JSNum := WithBot (WithTop ℚ)

/-- Embedding of a finite score into `JSNum`. -/
def toJS (q : ℚ) : JSNum := ((q : WithTop ℚ) : JSNum)

/-- `Math.min(...scores)`: `+Infinity` on the empty array. -/
def jsMin (l : List ℚ) : JSNum :=
  l.foldr (fun q m => min (toJS q) m) ⊤

/-- `Math.max(...scores)`: `-Infinity` on the empty array. -/
def jsMax (l : List ℚ) : JSNum :=
  l.foldr (fun q m => max (toJS q) m) ⊥

/-- The finite minimum of a non-empty score list (the value of `jsMin`
whenever the list is non-empty; the `[]` default is never used by
`normalise`, whose element-wise map is vacuous there). -/
def minQ : List ℚ → ℚ
  | [] => 0
  | q :: qs =>
    match qs with
    | [] => q
    | _ :: _ => min q (minQ qs)

/-- The finite maximum of a non-empty score list. -/
def maxQ : List ℚ → ℚ
  | [] => 0
  | q :: qs =>
    match qs with
    | [] => q
    | _ :: _ => max q (maxQ qs)

/-- `normalise` (`app.js` 400-405): all `0.5` when `max === min`,
otherwise the element-wise map `s ↦ (s - min) / (max - min)`.  The
comparison is performed on the extended number line (so the empty array,
with `min = +Infinity` and `max = -Infinity`, takes the map branch);
inside the map the list is non-empty and the extrema are the finite
`minQ` / `maxQ`. -/
def normalise (scores : List ℚ) : List ℚ :=
  if jsMax scores = jsMin scores then
    scores.map fun _ => (1 : ℚ) / 2
  else
    scores.map fun s => (s - minQ scores) / (maxQ scores - minQ scores)

/-- `phrases` is realised inside `t` as an ordered sequence of pairwise
non-overlapping contiguous substrings: `t` can be written as alternating
gap text and the phrases, in order. -/
def chainEmbeds : List (List Char) → List Char → Prop
  | [], _ => True
  | p :: ps, t => ∃ pre rest, t = pre ++ p ++ rest ∧ chainEmbeds ps rest

/-! ### Basic helper lemmas -/

theorem isEmpty_false_of_ne {α : Type} {l : List α} (h : l ≠ []) :
    l.isEmpty = false := by
  rcases l with _ | ⟨x, xs⟩
  · exact absurd rfl h
  · rfl

theorem trimChars_nil : trimChars [] = [] := rfl

theorem accumChunks_nil_eq (acc : List Char) :
    accumChunks [] acc =
      if (trimChars acc).isEmpty = true then [] else [acc] := rfl

theorem accumChunks_cons (p : List Char) (ps : List (List Char))
    (acc : List Char) :
    accumChunks (p :: ps) acc =
      if 35 ≤ (trimChars (acc ++ p)).length ∨ ps = [] then
        (if (trimChars (acc ++ p)).isEmpty = true then [] else [acc ++ p]) ++
          accumChunks ps []
      else accumChunks ps (acc ++ p) := rfl

/-! ### Lemmas about trimming -/

theorem trimChars_isEmpty_iff (cs : List Char) :
    (trimChars cs).isEmpty = true ↔ ∀ c ∈ cs, isWS c = true := by
  unfold trimChars
  rw [List.isEmpty_iff, List.reverse_eq_nil_iff, List.dropWhile_eq_nil_iff]
  constructor
  · intro h c hc
    have hsplit := List.takeWhile_append_dropWhile (p := isWS) (l := cs)
    rw [← hsplit] at hc
    rcases List.mem_append.1 hc with h1 | h2
    · exact List.mem_takeWhile_imp h1
    · exact h c (List.mem_reverse.2 h2)
  · intro h c hc
    exact h c ((List.dropWhile_sublist isWS).mem (List.mem_reverse.1 hc))

theorem trimChars_append_ne (a x : List Char)
    (hx : (trimChars x).isEmpty = false) :
    (trimChars (a ++ x)).isEmpty = false := by
  rcases h : (trimChars (a ++ x)).isEmpty with _ | _
  · rfl
  · exfalso
    have hall := (trimChars_isEmpty_iff (a ++ x)).1 h
    have : (trimChars x).isEmpty = true :=
      (trimChars_isEmpty_iff x).2 fun c hc => hall c (List.mem_append_right a hc)
    rw [this] at hx
    exact Bool.noConfusion hx

theorem trimChars_isEmpty_false_of_le (cs : List Char)
    (h : 35 ≤ (trimChars cs).length) : (trimChars cs).isEmpty = false := by
  rcases he : (trimChars cs).isEmpty with _ | _
  · rfl
  · rw [List.isEmpty_iff] at he
    rw [he] at h
    simp at h

/-! ### Lemmas about the sentence scan -/

theorem scanAux_flatten_ne :
    ∀ (cs cur : List Char) (b : Bool), cur ≠ [] →
      (scanAux cur b cs).flatten = cur.reverse ++ cs := by
  intro cs
  induction cs with
  | nil =>
    intro cur b h
    simp [scanAux, isEmpty_false_of_ne h]
  | cons c cs ih =>
    intro cur b h
    have hcur : cur.isEmpty = false := isEmpty_false_of_ne h
    cases hterm : isTerm c
    · cases hb : b
      · simp [scanAux, hterm, ih (c :: cur) false (by simp)]
      · simp [scanAux, hterm, ih [c] false (by simp)]
    · simp [scanAux, hterm, hcur, ih (c :: cur) true (by simp)]

theorem splitSentences_flatten (t : List Char) :
    (splitSentences t).flatten = t.dropWhile isTerm := by
  unfold splitSentences
  induction t with
  | nil => simp [scanAux]
  | cons c cs ih =>
    by_cases hc : isTerm c = true
    · simp only [scanAux, hc, if_true, List.isEmpty_nil, List.dropWhile_cons]
      simpa [hc] using ih
    · simp only [scanAux, hc, if_false, List.isEmpty_nil, Bool.false_eq_true,
        List.dropWhile_cons]
      rw [scanAux_flatten_ne cs [c] false (by simp)]
      simp [hc]

/-! ### Lemmas about the comma/semicolon sub-split -/

theorem splitAfterCuts_ne_nil : ∀ s : List Char, splitAfterCuts s ≠ [] := by
  intro s
  match s with
  | [] => simp [splitAfterCuts]
  | c :: rest =>
    unfold splitAfterCuts
    by_cases h : (isCut c && !rest.isEmpty) = true
    · simp [h]
    · simp only [h, Bool.false_eq_true, if_false]
      rcases hs : splitAfterCuts rest with _ | ⟨p, ps⟩ <;> simp

theorem splitAfterCuts_flatten : ∀ s : List Char, (splitAfterCuts s).flatten = s := by
  intro s
  induction s with
  | nil => simp [splitAfterCuts]
  | cons c rest ih =>
    unfold splitAfterCuts
    by_cases h : (isCut c && !rest.isEmpty) = true
    · simp only [h, if_true, List.flatten_cons]
      rw [ih]
      simp
    · simp only [h, Bool.false_eq_true, if_false]
      rcases hs : splitAfterCuts rest with _ | ⟨p, ps⟩
      · rw [hs] at ih
        simp only [List.flatten_nil] at ih
        simp [← ih]
      · rw [hs] at ih
        simp only [List.flatten_cons] at ih ⊢
        simp [← ih]

/-! ### Lemmas about the greedy accumulation -/

theorem accumChunks_flatten :
    ∀ (parts : List (List Char)) (acc : List Char), parts ≠ [] →
      (trimChars (parts.getLastD [])).isEmpty = false →
      (accumChunks parts acc).flatten = acc ++ parts.flatten := by
  intro parts
  induction parts with
  | nil => intro acc h _; exact absurd rfl h
  | cons p ps ih =>
    intro acc _ hlast
    rcases ps with _ | ⟨q, ps'⟩
    · have hp : (trimChars p).isEmpty = false := by
        simpa [List.getLastD] using hlast
      have hacc2 : (trimChars (acc ++ p)).isEmpty = false :=
        trimChars_append_ne acc p hp
      rw [accumChunks_cons, if_pos (Or.inr rfl),
        if_neg (by simp [hacc2]), accumChunks_nil_eq, trimChars_nil]
      simp
    · have hlast' : (trimChars ((q :: ps').getLastD [])).isEmpty = false := by
        simpa [List.getLastD_cons] using hlast
      rw [accumChunks_cons]
      by_cases hge : 35 ≤ (trimChars (acc ++ p)).length
      · have hne : (trimChars (acc ++ p)).isEmpty = false :=
          trimChars_isEmpty_false_of_le _ hge
        rw [if_pos (Or.inl hge), if_neg (by simp [hne]), List.flatten_append,
          ih [] (by simp) hlast']
        simp
      · rw [if_neg (by simp [hge]), ih (acc ++ p) (by simp) hlast']
        simp

theorem accumChunks_flatten_final :
    ∀ (parts : List (List Char)) (acc : List Char), parts ≠ [] →
      (trimChars (finalChunk parts acc)).isEmpty = false →
      (accumChunks parts acc).flatten = acc ++ parts.flatten := by
  intro parts
  induction parts with
  | nil => intro acc h _; exact absurd rfl h
  | cons p ps ih =>
    intro acc _ hfin
    rcases ps with _ | ⟨q, ps'⟩
    · have hp : (trimChars (acc ++ p)).isEmpty = false := hfin
      rw [accumChunks_cons, if_pos (Or.inr rfl), if_neg (by simp [hp]),
        accumChunks_nil_eq, trimChars_nil]
      simp
    · rw [accumChunks_cons]
      by_cases hge : 35 ≤ (trimChars (acc ++ p)).length
      · have hne : (trimChars (acc ++ p)).isEmpty = false :=
          trimChars_isEmpty_false_of_le _ hge
        have hfin' : (trimChars (finalChunk (q :: ps') [])).isEmpty = false := by
          have he : finalChunk (p :: q :: ps') acc = finalChunk (q :: ps') [] := by
            rw [show finalChunk (p :: q :: ps') acc
                = if 35 ≤ (trimChars (acc ++ p)).length then
                    finalChunk (q :: ps') []
                  else finalChunk (q :: ps') (acc ++ p) from rfl,
              if_pos hge]
          rw [← he]
          exact hfin
        rw [if_pos (Or.inl hge), if_neg (by simp [hne]), List.flatten_append,
          ih [] (by simp) hfin']
        simp
      · have hfin' :
            (trimChars (finalChunk (q :: ps') (acc ++ p))).isEmpty = false := by
          have he : finalChunk (p :: q :: ps') acc
              = finalChunk (q :: ps') (acc ++ p) := by
            rw [show finalChunk (p :: q :: ps') acc
                = if 35 ≤ (trimChars (acc ++ p)).length then
                    finalChunk (q :: ps') []
                  else finalChunk (q :: ps') (acc ++ p) from rfl,
              if_neg hge]
          rw [← he]
          exact hfin
        rw [if_neg (by simp [hge]), ih (acc ++ p) (by simp) hfin']
        simp

theorem accumChunks_dropLast_ge :
    ∀ (parts : List (List Char)) (acc : List Char),
      ∀ c ∈ (accumChunks parts acc).dropLast, 35 ≤ (trimChars c).length := by
  intro parts
  induction parts with
  | nil =>
    intro acc c hc
    rw [accumChunks_nil_eq] at hc
    by_cases h : (trimChars acc).isEmpty = true
    · rw [if_pos h] at hc; simp at hc
    · rw [if_neg h] at hc; simp at hc
  | cons p ps ih =>
    intro acc c hc
    rw [accumChunks_cons] at hc
    by_cases hcond : 35 ≤ (trimChars (acc ++ p)).length ∨ ps = []
    · rw [if_pos hcond] at hc
      by_cases hemp : (trimChars (acc ++ p)).isEmpty = true
      · rw [if_pos hemp, List.nil_append] at hc
        have hps : ps = [] := by
          rcases hcond with hge | h0
          · exfalso
            have h0' := List.isEmpty_iff.1 hemp
            rw [h0'] at hge
            simp at hge
          · exact h0
        rw [hps, accumChunks_nil_eq, trimChars_nil] at hc
        simp at hc
      · rw [if_neg hemp, List.singleton_append] at hc
        rcases hrest : accumChunks ps [] with _ | ⟨r, rs⟩
        · rw [hrest] at hc
          simp at hc
        · rw [hrest, List.dropLast_cons₂] at hc
          rcases List.mem_cons.1 hc with rfl | hmem
          · rcases hcond with hge | h0
            · exact hge
            · rw [h0, accumChunks_nil_eq, trimChars_nil] at hrest
              simp at hrest
          · have := ih [] c
            rw [hrest] at this
            exact this hmem
    · rw [if_neg hcond] at hc
      exact ih (acc ++ p) c hc

/-! ### Lemmas about single candidates -/

theorem processCandidate_flatten (s : List Char)
    (hs : (trimChars s).isEmpty = false)
    (hlast : 60 < s.length →
      (trimChars ((splitAfterCuts s).getLastD [])).isEmpty = false) :
    (processCandidate s).flatten = s := by
  unfold processCandidate
  rw [if_neg (by rw [hs]; exact Bool.noConfusion)]
  by_cases hlen : 60 < s.length
  · rw [if_pos hlen]
    rw [accumChunks_flatten (splitAfterCuts s) [] (splitAfterCuts_ne_nil s)
      (hlast hlen)]
    simp [splitAfterCuts_flatten]
  · rw [if_neg hlen]
    simp

theorem flatten_map_processCandidate :
    ∀ cands : List (List Char),
      (∀ s ∈ cands, (processCandidate s).flatten = s) →
      ((cands.map processCandidate).flatten).flatten = cands.flatten := by
  intro cands
  induction cands with
  | nil => intro _; simp
  | cons s cs ih =>
    intro h
    simp only [List.map_cons, List.flatten_cons, List.flatten_append]
    rw [h s (by simp), ih fun x hx => h x (by simp [hx])]

/-! ### Claim C1 — segmentation round-trip -/

/-- Claim C1, as stated, is false: on the input `".a"` the leading sentence
terminator belongs to no regex match and is dropped, so the concatenation
of the returned phrases is `"a"`, not `".a"`. -/
theorem segmentation_roundtrip_cex :
    ¬ ((tokenizePhrases ".a".data).flatten = ".a".data) := by decide

/-- Claim C1 (amended): concatenating the phrases returned by
`tokenizePhrases` reproduces the input exactly for every input that does
not begin with a sentence terminator, whose candidate sentences all
contain a non-whitespace character, and whose over-60-character candidates
end in a final cut-piece containing a non-whitespace character.  (In
general, leading terminators, whitespace-only candidate sentences and
whitespace-only final sub-chunks are dropped.) -/
theorem segmentation_roundtrip (t : List Char)
    (h0 : t.dropWhile isTerm = t)
    (h1 : ∀ s ∈ splitSentences t, (trimChars s).isEmpty = false)
    (h2 : ∀ s ∈ splitSentences t, 60 < s.length →
      (trimChars ((splitAfterCuts s).getLastD [])).isEmpty = false) :
    (tokenizePhrases t).flatten = t := by
  simp only [tokenizePhrases]
  by_cases he : (((splitSentences t).map processCandidate).flatten).isEmpty = true
  · rw [if_pos he]
    simp
  · rw [if_neg he]
    rw [flatten_map_processCandidate _
      fun s hs => processCandidate_flatten s (h1 s hs) (h2 s hs)]
    rw [splitSentences_flatten, h0]

/-- Witness: on a two-sentence prompt with no dropped characters the
round-trip holds. -/
theorem segmentation_roundtrip_witness :
    (tokenizePhrases "Be concise. Always answer in JSON.".data).flatten
      = "Be concise. Always answer in JSON.".data :=
  segmentation_roundtrip _ (by decide) (by decide) (by decide)

/-! ### Claim C9 — phrases are ordered substrings of the input -/

theorem chainEmbeds_of_flatten :
    ∀ (ps : List (List Char)) (pre suf : List Char),
      chainEmbeds ps (pre ++ ps.flatten ++ suf) := by
  intro ps
  induction ps with
  | nil => intro pre suf; trivial
  | cons p ps ih =>
    intro pre suf
    exact ⟨pre, ps.flatten ++ suf, by simp, by simpa using ih [] suf⟩

theorem chainEmbeds_append_left (ps : List (List Char)) (u v : List Char)
    (h : chainEmbeds ps v) : chainEmbeds ps (u ++ v) := by
  cases ps with
  | nil => trivial
  | cons p ps =>
    obtain ⟨pre, rest, rfl, hr⟩ := h
    exact ⟨u ++ pre, rest, by simp, hr⟩

theorem chainEmbeds_append :
    ∀ (xs ys : List (List Char)) (u v : List Char),
      chainEmbeds xs u → chainEmbeds ys v →
      chainEmbeds (xs ++ ys) (u ++ v) := by
  intro xs
  induction xs with
  | nil =>
    intro ys u v _ hy
    exact chainEmbeds_append_left ys u v hy
  | cons x xs ih =>
    intro ys u v hx hy
    obtain ⟨pre, rest, rfl, hr⟩ := hx
    exact ⟨pre, rest ++ v, by simp, ih ys rest v hr hy⟩

theorem chainEmbeds_flatMap :
    ∀ (cs : List (List Char)) (t : List Char)
      (f : List Char → List (List Char)),
      chainEmbeds cs t → (∀ c ∈ cs, chainEmbeds (f c) c) →
      chainEmbeds ((cs.map f).flatten) t := by
  intro cs
  induction cs with
  | nil =>
    intro t f _ _
    simp only [List.map_nil, List.flatten_nil]
    trivial
  | cons c cs ih =>
    intro t f hc hf
    obtain ⟨pre, rest, rfl, hr⟩ := hc
    simp only [List.map_cons, List.flatten_cons]
    have h1 : chainEmbeds (f c ++ (cs.map f).flatten) (c ++ rest) :=
      chainEmbeds_append _ _ _ _ (hf c (by simp))
        (ih rest f hr fun x hx => hf x (by simp [hx]))
    have h2 := chainEmbeds_append_left _ pre _ h1
    simpa [List.append_assoc] using h2

theorem accumChunks_chainEmbeds :
    ∀ (parts : List (List Char)) (acc : List Char),
      chainEmbeds (accumChunks parts acc) (acc ++ parts.flatten) := by
  intro parts
  induction parts with
  | nil =>
    intro acc
    rw [accumChunks_nil_eq]
    by_cases h : (trimChars acc).isEmpty = true
    · rw [if_pos h]; trivial
    · rw [if_neg h]
      exact ⟨[], [], by simp, trivial⟩
  | cons p ps ih =>
    intro acc
    rw [accumChunks_cons]
    by_cases hcond : 35 ≤ (trimChars (acc ++ p)).length ∨ ps = []
    · rw [if_pos hcond]
      by_cases hemp : (trimChars (acc ++ p)).isEmpty = true
      · rw [if_pos hemp, List.nil_append]
        have h1 := chainEmbeds_append_left (accumChunks ps []) (acc ++ p)
          ps.flatten (by simpa using ih [])
        simpa [List.append_assoc] using h1
      · rw [if_neg hemp, List.singleton_append]
        refine ⟨[], ps.flatten, by simp, ?_⟩
        simpa using ih []
    · rw [if_neg hcond]
      simpa [List.append_assoc] using ih (acc ++ p)

theorem processCandidate_chainEmbeds (s : List Char) :
    chainEmbeds (processCandidate s) s := by
  unfold processCandidate
  by_cases h1 : (trimChars s).isEmpty = true
  · rw [if_pos h1]; trivial
  · rw [if_neg h1]
    by_cases h2 : 60 < s.length
    · rw [if_pos h2]
      have h3 := accumChunks_chainEmbeds (splitAfterCuts s) []
      rw [List.nil_append, splitAfterCuts_flatten] at h3
      exact h3
    · rw [if_neg h2]
      exact ⟨[], [], by simp, trivial⟩

/-- Claim C9: every phrase returned by `tokenizePhrases` is a contiguous
substring of the input, and the phrases occur in the input, in order and
without overlap, exactly as returned — also on inputs where characters
between phrases are discarded. -/
theorem tokenizePhrases_chainEmbeds (t : List Char) :
    chainEmbeds (tokenizePhrases t) t := by
  simp only [tokenizePhrases]
  by_cases he : (((splitSentences t).map processCandidate).flatten).isEmpty = true
  · rw [if_pos he]
    exact ⟨[], [], by simp, trivial⟩
  · rw [if_neg he]
    have ht : t = t.takeWhile isTerm ++ (splitSentences t).flatten ++ [] := by
      rw [splitSentences_flatten]
      simp [List.takeWhile_append_dropWhile]
    have hcands : chainEmbeds (splitSentences t) t := by
      have h1 := chainEmbeds_of_flatten (splitSentences t) (t.takeWhile isTerm) []
      rw [← ht] at h1
      exact h1
    exact chainEmbeds_flatMap _ _ _ hcands fun c _ => processCandidate_chainEmbeds c

/-! ### Claim C6 — candidate sentence sub-splitting -/

/-- Claim C6, as stated, is false in its "final partial chunk always
flushed" part: on the 61-character candidate consisting of 59 `a`s, a
comma and a newline, the final cut-piece `"\n"` forms a whitespace-only
trailing chunk, which the accumulation loop discards instead of flushing,
so the emitted sub-chunks do not cover the candidate. -/
theorem candidate_subsplit_cex :
    "aaaaaaaaaaaaaaaaaaaaaaaaaaaaaaaaaaaaaaaaaaaaaaaaaaaaaaaaaaa,\n".data
        ∈ splitSentences
          "aaaaaaaaaaaaaaaaaaaaaaaaaaaaaaaaaaaaaaaaaaaaaaaaaaaaaaaaaaa,\n".data ∧
      60 < "aaaaaaaaaaaaaaaaaaaaaaaaaaaaaaaaaaaaaaaaaaaaaaaaaaaaaaaaaaa,\n".data.length ∧
      (trimChars "aaaaaaaaaaaaaaaaaaaaaaaaaaaaaaaaaaaaaaaaaaaaaaaaaaaaaaaaaaa,\n".data).isEmpty
        = false ∧
      ¬ ((processCandidate
            "aaaaaaaaaaaaaaaaaaaaaaaaaaaaaaaaaaaaaaaaaaaaaaaaaaaaaaaaaaa,\n".data).flatten
          = "aaaaaaaaaaaaaaaaaaaaaaaaaaaaaaaaaaaaaaaaaaaaaaaaaaaaaaaaaaa,\n".data) := by
  decide

/-- Claim C6 (amended): a candidate sentence of length at most 60 with
non-whitespace content is kept as a single unsplit phrase; a longer
candidate is cut after each comma/semicolon and greedily accumulated into
chunks flushed at trimmed length at least 35, every emitted sub-chunk
except possibly the last having trimmed length at least 35; the final
partial chunk (the text accumulated since the last flush, through the
last piece — `finalChunk`) is flushed even under 35 trimmed characters
provided its trimmed content is non-empty, in which case the emitted
sub-chunks concatenate back to the candidate; a whitespace-only final
chunk is discarded, not flushed. -/
theorem candidate_subsplit (t s : List Char)
    (hs : s ∈ splitSentences t)
    (htrim : (trimChars s).isEmpty = false) :
    (s.length ≤ 60 → processCandidate s = [s]) ∧
    (60 < s.length →
      ∀ c ∈ (processCandidate s).dropLast, 35 ≤ (trimChars c).length) ∧
    (60 < s.length →
      (trimChars (finalChunk (splitAfterCuts s) [])).isEmpty = false →
      (processCandidate s).flatten = s) := by
  refine ⟨?_, ?_, ?_⟩
  · intro hle
    unfold processCandidate
    rw [if_neg (by simp [htrim]), if_neg (by omega)]
  · intro hgt c hc
    unfold processCandidate at hc
    rw [if_neg (by simp [htrim]), if_pos hgt] at hc
    exact accumChunks_dropLast_ge _ _ c hc
  · intro hgt hfinal
    unfold processCandidate
    rw [if_neg (by simp [htrim]), if_pos hgt,
      accumChunks_flatten_final (splitAfterCuts s) []
        (splitAfterCuts_ne_nil s) hfinal]
    simp [splitAfterCuts_flatten]

/-- Witness: a 62-character one-sentence candidate `"a"*50 ++ ",bb," ++
" "*8` splits into the pieces `"a"*50 ++ ","`, `"bb,"` and eight spaces;
the first is flushed at 51 trimmed characters and the final partial
chunk `"bb,"` plus the eight spaces has non-empty trimmed content (even
though its last cut-piece is whitespace-only), so it is flushed and the
chunks concatenate back to the candidate. -/
theorem candidate_subsplit_witness :
    (∀ c ∈ (processCandidate
        "aaaaaaaaaaaaaaaaaaaaaaaaaaaaaaaaaaaaaaaaaaaaaaaaaa,bb,        ".data).dropLast,
      35 ≤ (trimChars c).length) ∧
    (processCandidate
        "aaaaaaaaaaaaaaaaaaaaaaaaaaaaaaaaaaaaaaaaaaaaaaaaaa,bb,        ".data).flatten
      = "aaaaaaaaaaaaaaaaaaaaaaaaaaaaaaaaaaaaaaaaaaaaaaaaaa,bb,        ".data :=
  ⟨(candidate_subsplit
      "aaaaaaaaaaaaaaaaaaaaaaaaaaaaaaaaaaaaaaaaaaaaaaaaaa,bb,        ".data
      "aaaaaaaaaaaaaaaaaaaaaaaaaaaaaaaaaaaaaaaaaaaaaaaaaa,bb,        ".data
      (by decide) (by decide)).2.1 (by decide),
   (candidate_subsplit
      "aaaaaaaaaaaaaaaaaaaaaaaaaaaaaaaaaaaaaaaaaaaaaaaaaa,bb,        ".data
      "aaaaaaaaaaaaaaaaaaaaaaaaaaaaaaaaaaaaaaaaaaaaaaaaaa,bb,        ".data
      (by decide) (by decide)).2.2 (by decide) (by decide)⟩

/-! ### Claims C7 and C8 — trigram cosine similarity -/

theorem triKeys_comm (a b : List Char) : triKeys a b = triKeys b a :=
  Finset.union_comm _ _

theorem simDot_comm (a b : List Char) : simDot a b = simDot b a := by
  unfold simDot
  rw [triKeys_comm]
  exact Finset.sum_congr rfl fun g _ => Nat.mul_comm _ _

theorem simNa_swap (a b : List Char) : simNa a b = simNb b a := by
  unfold simNa simNb
  rw [triKeys_comm]

theorem simNb_swap (a b : List Char) : simNb a b = simNa b a := by
  unfold simNa simNb
  rw [triKeys_comm]

theorem simDot_sq_le (a b : List Char) :
    ((simDot a b : ℝ)) ^ 2 ≤ (simNa a b : ℝ) * (simNb a b : ℝ) := by
  have hcs := Finset.sum_mul_sq_le_sq_mul_sq (triKeys a b)
    (fun g => (ngramFreq a g : ℝ)) (fun g => (ngramFreq b g : ℝ))
  have h1 : ((simDot a b : ℝ))
      = ∑ g ∈ triKeys a b, (ngramFreq a g : ℝ) * (ngramFreq b g : ℝ) := by
    unfold simDot
    push_cast
    rfl
  have h2 : ((simNa a b : ℝ)) = ∑ g ∈ triKeys a b, (ngramFreq a g : ℝ) ^ 2 := by
    unfold simNa
    push_cast
    exact Finset.sum_congr rfl fun g _ => (pow_two _).symm
  have h3 : ((simNb a b : ℝ)) = ∑ g ∈ triKeys a b, (ngramFreq b g : ℝ) ^ 2 := by
    unfold simNb
    push_cast
    exact Finset.sum_congr rfl fun g _ => (pow_two _).symm
  rw [h1, h2, h3]
  exact hcs

/-- Claim C7: the trigram cosine similarity is symmetric and its value
always lies in the interval `[0, 1]`. -/
theorem cosineSim_symm_and_bounded (a b : List Char) :
    cosineSim a b = cosineSim b a ∧
    0 ≤ cosineSim a b ∧ cosineSim a b ≤ 1 := by
  refine ⟨?_, ?_, ?_⟩
  · unfold cosineSim
    rw [show simNa b a = simNb a b from (simNb_swap a b).symm,
      show simNb b a = simNa a b from (simNa_swap a b).symm,
      show simDot b a = simDot a b from (simDot_comm a b).symm]
    exact if_congr or_comm rfl (by rw [mul_comm])
  · unfold cosineSim
    by_cases h : simNa a b = 0 ∨ simNb a b = 0
    · rw [if_pos h]
    · rw [if_neg h]
      push_neg at h
      have s1 : 0 < Real.sqrt (simNa a b) :=
        Real.sqrt_pos.2 (by exact_mod_cast Nat.pos_of_ne_zero h.1)
      have s2 : 0 < Real.sqrt (simNb a b) :=
        Real.sqrt_pos.2 (by exact_mod_cast Nat.pos_of_ne_zero h.2)
      exact div_nonneg (Nat.cast_nonneg _) (le_of_lt (mul_pos s1 s2))
  · unfold cosineSim
    by_cases h : simNa a b = 0 ∨ simNb a b = 0
    · rw [if_pos h]
      exact zero_le_one
    · rw [if_neg h]
      push_neg at h
      have s1 : 0 < Real.sqrt (simNa a b) :=
        Real.sqrt_pos.2 (by exact_mod_cast Nat.pos_of_ne_zero h.1)
      have s2 : 0 < Real.sqrt (simNb a b) :=
        Real.sqrt_pos.2 (by exact_mod_cast Nat.pos_of_ne_zero h.2)
      rw [div_le_one (mul_pos s1 s2)]
      calc (simDot a b : ℝ)
          = Real.sqrt ((simDot a b : ℝ) ^ 2) :=
            (Real.sqrt_sq (Nat.cast_nonneg _)).symm
        _ ≤ Real.sqrt ((simNa a b : ℝ) * (simNb a b : ℝ)) :=
            Real.sqrt_le_sqrt (simDot_sq_le a b)
        _ = Real.sqrt (simNa a b) * Real.sqrt (simNb a b) :=
            Real.sqrt_mul (Nat.cast_nonneg _) _

/-- Claim C8: on identical inputs the similarity is `1` when the string
has at least three characters (at least one trigram), and `0` when it is
shorter than three characters (zero trigrams, zero norm). -/
theorem cosineSim_self (a : List Char) :
    (3 ≤ a.length → cosineSim a a = 1) ∧
    (a.length < 3 → cosineSim a a = 0) := by
  have hlen : (lowered a).length = a.length := List.length_map _ _
  constructor
  · intro h3
    have hng : ngrams (lowered a) ≠ [] := by
      apply List.length_pos.1
      unfold ngrams
      rw [if_neg (by omega), List.length_map, List.length_range]
      omega
    obtain ⟨g0, hg0⟩ := List.exists_mem_of_ne_nil _ hng
    have hcount : 0 < (ngrams (lowered a)).count g0 := List.count_pos_iff.2 hg0
    have hna : simNa a a ≠ 0 := by
      intro h0
      have hmem : g0 ∈ triKeys a a :=
        Finset.mem_union.2 (Or.inl (List.mem_toFinset.2 hg0))
      have hzero := (Finset.sum_eq_zero_iff).1 h0 g0 hmem
      have : ngramFreq a g0 = 0 := by
        rcases Nat.mul_eq_zero.1 hzero with h | h <;> exact h
      unfold ngramFreq at this
      omega
    have hguard : ¬ (simNa a a = 0 ∨ simNb a a = 0) := by
      have hab : simNb a a = simNa a a := rfl
      rw [hab]
      simp [hna]
    unfold cosineSim
    rw [if_neg hguard]
    have hdot : simDot a a = simNa a a := rfl
    have hab2 : simNb a a = simNa a a := rfl
    rw [hdot, hab2, Real.mul_self_sqrt (Nat.cast_nonneg _)]
    exact div_self (Nat.cast_ne_zero.2 hna)
  · intro h3
    have hng : ngrams (lowered a) = [] := by
      unfold ngrams
      rw [if_pos (by omega)]
    have hna : simNa a a = 0 := by
      unfold simNa triKeys
      rw [hng]
      simp
    unfold cosineSim
    rw [if_pos (Or.inl hna)]

/-- Witness: `cosineSim` is `1` on the three-character string `"abc"`
against itself and `0` on the two-character string `"ab"` against
itself. -/
theorem cosineSim_self_witness :
    cosineSim "abc".data "abc".data = 1 ∧
    cosineSim "ab".data "ab".data = 0 :=
  ⟨(cosineSim_self "abc".data).1 (by decide),
   (cosineSim_self "ab".data).2 (by decide)⟩

/-! ### Lemmas about the probe loops -/

theorem probeLoop_snd (v : ℕ → List Char) (b : List Char) (o : Oracle) :
    ∀ rem i k : ℕ, (probeLoop v b o rem i k).2 = k + rem := by
  intro rem
  induction rem with
  | zero => intro i k; rfl
  | succ n ih =>
    intro i k
    simp only [probeLoop]
    rw [ih (i + 1) (k + 1)]
    omega

theorem probeLoop_len (v : ℕ → List Char) (b : List Char) (o : Oracle) :
    ∀ rem i k : ℕ, (probeLoop v b o rem i k).1.length = rem := by
  intro rem
  induction rem with
  | zero => intro i k; rfl
  | succ n ih =>
    intro i k
    simp only [probeLoop, List.length_cons]
    rw [ih (i + 1) (k + 1)]

theorem probeLoop_get_none (v : ℕ → List Char) (b : List Char) (o : Oracle) :
    ∀ rem i k j : ℕ, j < rem → o (v (i + j)) (k + j) = none →
      (probeLoop v b o rem i k).1.get? j = some 0 := by
  intro rem
  induction rem with
  | zero => intro i k j hj _; exact absurd hj (Nat.not_lt_zero j)
  | succ n ih =>
    intro i k j hj hnone
    simp only [probeLoop]
    cases j with
    | zero =>
      have h0 : o (v i) k = none := by simpa using hnone
      simp [h0]
    | succ m =>
      have h1 : o (v (i + 1 + m)) (k + 1 + m) = none := by
        rw [show i + 1 + m = i + (m + 1) from by omega,
          show k + 1 + m = k + (m + 1) from by omega]
        exact hnone
      simpa using ih (i + 1) (k + 1) m (by omega) h1

theorem paraLoop_snd (phrases : List (List Char)) (b : List Char) (o : Oracle) :
    ∀ rem i k : ℕ, (paraLoop phrases b o rem i k).2 = k + 2 * rem := by
  intro rem
  induction rem with
  | zero => intro i k; rfl
  | succ n ih =>
    intro i k
    simp only [paraLoop]
    rw [ih (i + 1) (k + 2)]
    omega

theorem paraLoop_len (phrases : List (List Char)) (b : List Char) (o : Oracle) :
    ∀ rem i k : ℕ, (paraLoop phrases b o rem i k).1.length = rem := by
  intro rem
  induction rem with
  | zero => intro i k; rfl
  | succ n ih =>
    intro i k
    simp only [paraLoop, List.length_cons]
    rw [ih (i + 1) (k + 2)]

/-! ### Claim C2 — Model Oracle call budget -/

/-- Claim C2: with a successful baseline call, a run performs exactly
`N + 1` Model Oracle invocations under the Substitution (perturbation)
and Omission strategies and exactly `2N + 1` under the Neutralization
(paraphrase) strategy, where `N` is the phrase count. -/
theorem modelOracle_call_count (primary : List Char)
    (phrases : List (List Char)) (oracle : Oracle) (b : List Char)
    (hb : oracle primary 0 = some b) :
    (runSaliency primary phrases .perturbation oracle).2
        = phrases.length + 1 ∧
    (runSaliency primary phrases .omission oracle).2
        = phrases.length + 1 ∧
    (runSaliency primary phrases .paraphrase oracle).2
        = 2 * phrases.length + 1 := by
  refine ⟨?_, ?_, ?_⟩
  · simp only [runSaliency, hb, saliencyPerturbation]
    rw [probeLoop_snd]
    omega
  · simp only [runSaliency, hb, saliencyOmission]
    rw [probeLoop_snd]
    omega
  · simp only [runSaliency, hb, saliencyParaphrase]
    rw [paraLoop_snd]
    omega

/-- Witness: on a one-phrase prompt with an always-answering oracle the
budgets are `2`, `2` and `3`. -/
theorem modelOracle_call_count_witness :
    (runSaliency "Hi.".data ["Hi.".data] .perturbation
        (fun _ _ => some "ok".data)).2 = 2 ∧
    (runSaliency "Hi.".data ["Hi.".data] .omission
        (fun _ _ => some "ok".data)).2 = 2 ∧
    (runSaliency "Hi.".data ["Hi.".data] .paraphrase
        (fun _ _ => some "ok".data)).2 = 3 :=
  ⟨(modelOracle_call_count "Hi.".data ["Hi.".data] _ "ok".data rfl).1,
   (modelOracle_call_count "Hi.".data ["Hi.".data] _ "ok".data rfl).2.1,
   (modelOracle_call_count "Hi.".data ["Hi.".data] _ "ok".data rfl).2.2⟩

/-! ### Claim C3 — per-phrase failure resilience -/

/-- Claim C3: under the Substitution and Omission strategies, if the
baseline succeeds, the probe for phrase `k` fails and every other probe
succeeds, the run still completes with a full-length raw-score list whose
`k`-th entry is `0`. -/
theorem perPhrase_failure_resilience :
    (∀ (primary : List Char) (phrases : List (List Char)) (oracle : Oracle)
        (b : List Char) (k : ℕ),
      oracle primary 0 = some b →
      k < phrases.length →
      oracle (substVariant phrases k) (1 + k) = none →
      (∀ i, i < phrases.length → i ≠ k →
        (oracle (substVariant phrases i) (1 + i)).isSome = true) →
      ∃ scores,
        (runSaliency primary phrases .perturbation oracle).1 = some scores ∧
        scores.length = phrases.length ∧ scores.get? k = some 0) ∧
    (∀ (primary : List Char) (phrases : List (List Char)) (oracle : Oracle)
        (b : List Char) (k : ℕ),
      oracle primary 0 = some b →
      k < phrases.length →
      oracle (omitVariant phrases k) (1 + k) = none →
      (∀ i, i < phrases.length → i ≠ k →
        (oracle (omitVariant phrases i) (1 + i)).isSome = true) →
      ∃ scores,
        (runSaliency primary phrases .omission oracle).1 = some scores ∧
        scores.length = phrases.length ∧ scores.get? k = some 0) := by
  constructor
  · intro primary phrases oracle b k hb hk hfail _
    refine ⟨(saliencyPerturbation phrases b oracle 1).1, ?_, ?_, ?_⟩
    · simp [runSaliency, hb]
    · simp [saliencyPerturbation, probeLoop_len]
    · have hnone : oracle (substVariant phrases (0 + k)) (1 + k) = none := by
        rw [Nat.zero_add]
        exact hfail
      simpa [saliencyPerturbation] using
        probeLoop_get_none (fun i => substVariant phrases i) b oracle
          phrases.length 0 1 k hk hnone
  · intro primary phrases oracle b k hb hk hfail _
    refine ⟨(saliencyOmission phrases b oracle 1).1, ?_, ?_, ?_⟩
    · simp [runSaliency, hb]
    · simp [saliencyOmission, probeLoop_len]
    · have hnone : oracle (omitVariant phrases (0 + k)) (1 + k) = none := by
        rw [Nat.zero_add]
        exact hfail
      simpa [saliencyOmission] using
        probeLoop_get_none (fun i => omitVariant phrases i) b oracle
          phrases.length 0 1 k hk hnone

/-- Witness: two phrases, the probe for phrase `1` (third oracle call
overall) fails, everything else succeeds; both strategies return a
2-element score list with entry `1` equal to `0`. -/
theorem perPhrase_failure_resilience_witness :
    (∃ scores,
      (runSaliency ['p'] [['a'], ['b']] .perturbation
          (fun _ n => if n = 2 then none else some ['o'])).1 = some scores ∧
      scores.length = 2 ∧ scores.get? 1 = some 0) ∧
    (∃ scores,
      (runSaliency ['p'] [['a'], ['b']] .omission
          (fun _ n => if n = 2 then none else some ['o'])).1 = some scores ∧
      scores.length = 2 ∧ scores.get? 1 = some 0) :=
  ⟨perPhrase_failure_resilience.1 ['p'] [['a'], ['b']]
      (fun _ n => if n = 2 then none else some ['o']) ['o'] 1
      rfl (by decide) rfl (by decide),
   perPhrase_failure_resilience.2 ['p'] [['a'], ['b']]
      (fun _ n => if n = 2 then none else some ['o']) ['o'] 1
      rfl (by decide) rfl (by decide)⟩

/-! ### Claim C5 — neutralization fallback policy -/

/-- Claim C5, as stated, is false in its "returns an empty string" half:
when the side query succeeds with the empty string, `saliencyParaphrase`
uses that empty string as the replacement, not the `"[something]"`
placeholder. -/
theorem paraphrase_placeholder_cex :
    (fun (_ : List Char) (_ : ℕ) => (some ([] : List Char)))
        (paraphraseQuery ['x']) 0 = some ([] : List Char) ∧
    ¬ (paraNeutral (fun _ _ => some ([] : List Char)) 0 ['x']
        = neutralPlaceholder) :=
  ⟨rfl, by decide⟩

/-- Claim C5 (amended): when the side query throws, the phrase at the
perturbed index is replaced by the fixed placeholder `"[something]"`;
when the side query succeeds, its result — even the empty string — is
used as the replacement; in either case the phrase's evaluation is not
aborted: the paraphrase run still yields one raw score per phrase. -/
theorem paraphrase_placeholder (oracle : Oracle) (k : ℕ)
    (phrase : List Char) (phrases : List (List Char)) (baseline : List Char)
    (k0 : ℕ) :
    (oracle (paraphraseQuery phrase) k = none →
      paraNeutral oracle k phrase = neutralPlaceholder) ∧
    (∀ out, oracle (paraphraseQuery phrase) k = some out →
      paraNeutral oracle k phrase = out) ∧
    (saliencyParaphrase phrases baseline oracle k0).1.length
      = phrases.length := by
  refine ⟨?_, ?_, ?_⟩
  · intro h
    unfold paraNeutral
    rw [h]
  · intro out h
    unfold paraNeutral
    rw [h]
  · simp [saliencyParaphrase, paraLoop_len]

/-- Witness: with an always-failing oracle the placeholder is used and a
one-phrase paraphrase run yields one score. -/
theorem paraphrase_placeholder_witness :
    paraNeutral (fun _ _ => none) 0 ['x'] = neutralPlaceholder ∧
    (saliencyParaphrase [['x']] [] (fun _ _ => none) 0).1.length = 1 :=
  ⟨(paraphrase_placeholder (fun _ _ => none) 0 ['x'] [['x']] [] 0).1 rfl,
   (paraphrase_placeholder (fun _ _ => none) 0 ['x'] [['x']] [] 0).2.2⟩

/-! ### Lemmas about the normaliser -/

theorem toJS_inj {a b : ℚ} : toJS a = toJS b ↔ a = b := by
  unfold toJS
  rw [WithBot.coe_inj, WithTop.coe_inj]

theorem toJS_le {a b : ℚ} : toJS a ≤ toJS b ↔ a ≤ b := by
  unfold toJS
  rw [WithBot.coe_le_coe, WithTop.coe_le_coe]

theorem toJS_min (a b : ℚ) : toJS (min a b) = min (toJS a) (toJS b) := by
  rcases le_total a b with h | h
  · rw [min_eq_left h, min_eq_left (toJS_le.2 h)]
  · rw [min_eq_right h, min_eq_right (toJS_le.2 h)]

theorem toJS_max (a b : ℚ) : toJS (max a b) = max (toJS a) (toJS b) := by
  rcases le_total a b with h | h
  · rw [max_eq_right h, max_eq_right (toJS_le.2 h)]
  · rw [max_eq_left h, max_eq_left (toJS_le.2 h)]

theorem jsMin_eq_minQ : ∀ (x : ℚ) (xs : List ℚ),
    jsMin (x :: xs) = toJS (minQ (x :: xs)) := by
  intro x xs
  induction xs generalizing x with
  | nil =>
    show min (toJS x) ⊤ = toJS (minQ [x])
    rw [min_eq_left le_top]
    rfl
  | cons y ys ih =>
    show min (toJS x) (jsMin (y :: ys)) = toJS (minQ (x :: y :: ys))
    rw [ih y, show minQ (x :: y :: ys) = min x (minQ (y :: ys)) from rfl,
      toJS_min]

theorem jsMax_eq_maxQ : ∀ (x : ℚ) (xs : List ℚ),
    jsMax (x :: xs) = toJS (maxQ (x :: xs)) := by
  intro x xs
  induction xs generalizing x with
  | nil =>
    show max (toJS x) ⊥ = toJS (maxQ [x])
    rw [max_eq_left bot_le]
    rfl
  | cons y ys ih =>
    show max (toJS x) (jsMax (y :: ys)) = toJS (maxQ (x :: y :: ys))
    rw [ih y, show maxQ (x :: y :: ys) = max x (maxQ (y :: ys)) from rfl,
      toJS_max]

theorem minQ_mem : ∀ l : List ℚ, l ≠ [] → minQ l ∈ l := by
  intro l
  induction l with
  | nil => intro h; exact absurd rfl h
  | cons x xs ih =>
    intro _
    rcases xs with _ | ⟨y, ys⟩
    · simp [minQ]
    · rw [show minQ (x :: y :: ys) = min x (minQ (y :: ys)) from rfl]
      rcases le_total x (minQ (y :: ys)) with h | h
      · rw [min_eq_left h]
        exact List.mem_cons_self _ _
      · rw [min_eq_right h]
        exact List.mem_cons_of_mem x (ih (by simp))

theorem maxQ_mem : ∀ l : List ℚ, l ≠ [] → maxQ l ∈ l := by
  intro l
  induction l with
  | nil => intro h; exact absurd rfl h
  | cons x xs ih =>
    intro _
    rcases xs with _ | ⟨y, ys⟩
    · simp [maxQ]
    · rw [show maxQ (x :: y :: ys) = max x (maxQ (y :: ys)) from rfl]
      rcases le_total x (maxQ (y :: ys)) with h | h
      · rw [max_eq_right h]
        exact List.mem_cons_of_mem x (ih (by simp))
      · rw [max_eq_left h]
        exact List.mem_cons_self _ _

theorem minQ_le : ∀ (l : List ℚ) (x : ℚ), x ∈ l → minQ l ≤ x := by
  intro l
  induction l with
  | nil => intro x hx; simp at hx
  | cons a xs ih =>
    intro x hx
    rcases xs with _ | ⟨y, ys⟩
    · simp at hx
      simp [minQ, hx]
    · rw [show minQ (a :: y :: ys) = min a (minQ (y :: ys)) from rfl]
      rcases List.mem_cons.1 hx with rfl | hmem
      · exact min_le_left _ _
      · exact le_trans (min_le_right _ _) (ih x hmem)

theorem maxQ_ge : ∀ (l : List ℚ) (x : ℚ), x ∈ l → x ≤ maxQ l := by
  intro l
  induction l with
  | nil => intro x hx; simp at hx
  | cons a xs ih =>
    intro x hx
    rcases xs with _ | ⟨y, ys⟩
    · simp at hx
      simp [maxQ, hx]
    · rw [show maxQ (a :: y :: ys) = max a (maxQ (y :: ys)) from rfl]
      rcases List.mem_cons.1 hx with rfl | hmem
      · exact le_max_left _ _
      · exact le_trans (ih x hmem) (le_max_right _ _)

/-! ### Claim C10 — the empty score array -/

/-- Claim C10: on the empty score array the minimum evaluates to
`+Infinity` and the maximum to `-Infinity`, so the degenerate
`max == min` branch is not taken, and the element-wise map over zero
elements returns the empty array without error. -/
theorem normalise_empty :
    normalise ([] : List ℚ) = [] ∧
    jsMin ([] : List ℚ) = (⊤ : JSNum) ∧
    jsMax ([] : List ℚ) = (⊥ : JSNum) ∧
    jsMax ([] : List ℚ) ≠ jsMin ([] : List ℚ) := by
  have h : jsMax ([] : List ℚ) ≠ jsMin ([] : List ℚ) := by decide
  refine ⟨?_, rfl, rfl, h⟩
  unfold normalise
  rw [if_neg h]
  rfl

/-! ### Claim C4 — min-max normalisation -/

/-- Claim C4: on a non-empty score array, `normalise` preserves length
and order; when the maximum equals the minimum (single-element and
all-equal arrays included) every output element is `0.5`; otherwise the
output is the element-wise map `s ↦ (s - min) / (max - min)`, attains
`0` and `1`, and stays within `[0, 1]`. -/
theorem normalise_spec (scores : List ℚ) (hne : scores ≠ []) :
    (normalise scores).length = scores.length ∧
    (maxQ scores = minQ scores → ∀ x ∈ normalise scores, x = 1 / 2) ∧
    (maxQ scores ≠ minQ scores →
      normalise scores
          = scores.map
              (fun s => (s - minQ scores) / (maxQ scores - minQ scores)) ∧
      (0 : ℚ) ∈ normalise scores ∧ (1 : ℚ) ∈ normalise scores ∧
      ∀ x ∈ normalise scores, 0 ≤ x ∧ x ≤ 1) := by
  have hguard : (jsMax scores = jsMin scores) ↔ (maxQ scores = minQ scores) := by
    rcases scores with _ | ⟨x, xs⟩
    · exact absurd rfl hne
    · rw [jsMin_eq_minQ, jsMax_eq_maxQ, toJS_inj]
  refine ⟨?_, ?_, ?_⟩
  · unfold normalise
    by_cases h : jsMax scores = jsMin scores
    · rw [if_pos h, List.length_map]
    · rw [if_neg h, List.length_map]
  · intro heq
    unfold normalise
    rw [if_pos (hguard.2 heq)]
    intro x hx
    rcases List.mem_map.1 hx with ⟨s, _, rfl⟩
    rfl
  · intro hne2
    have hg : ¬ (jsMax scores = jsMin scores) := fun h => hne2 (hguard.1 h)
    have hmap : normalise scores
        = scores.map
            (fun s => (s - minQ scores) / (maxQ scores - minQ scores)) := by
      unfold normalise
      rw [if_neg hg]
    have hminmem := minQ_mem scores hne
    have hmaxmem := maxQ_mem scores hne
    have hlt : minQ scores < maxQ scores :=
      lt_of_le_of_ne (minQ_le scores _ hmaxmem) fun h => hne2 h.symm
    have hd : 0 < maxQ scores - minQ scores := sub_pos.2 hlt
    refine ⟨hmap, ?_, ?_, ?_⟩
    · rw [hmap]
      exact List.mem_map.2
        ⟨minQ scores, hminmem, by rw [sub_self, zero_div]⟩
    · rw [hmap]
      exact List.mem_map.2
        ⟨maxQ scores, hmaxmem, div_self (ne_of_gt hd)⟩
    · rw [hmap]
      intro x hx
      rcases List.mem_map.1 hx with ⟨s, hs, rfl⟩
      constructor
      · exact div_nonneg (sub_nonneg.2 (minQ_le scores s hs)) (le_of_lt hd)
      · rw [div_le_one hd]
        exact sub_le_sub_right (maxQ_ge scores s hs) _

/-- Witness: `normalise [0, 2]` attains `0` and `1`; `normalise [5, 5]`
has two elements, all equal to `0.5`. -/
theorem normalise_spec_witness :
    (0 : ℚ) ∈ normalise [0, 2] ∧ (1 : ℚ) ∈ normalise [0, 2] ∧
    (normalise [(5 : ℚ), 5]).length = 2 ∧
    (∀ x ∈ normalise [(5 : ℚ), 5], x = 1 / 2) :=
  ⟨((normalise_spec [0, 2] (by decide)).2.2
      (by norm_num [minQ, maxQ])).2.1,
   ((normalise_spec [0, 2] (by decide)).2.2
      (by norm_num [minQ, maxQ])).2.2.1,
   (normalise_spec [(5 : ℚ), 5] (by decide)).1,
   (normalise_spec [(5 : ℚ), 5] (by decide)).2.1
      (by norm_num [minQ, maxQ])⟩

end PromptLens
